import Mathlib

/-!
Verification of the financial time-series analytics in the Streamlit_Projects
repository (finance_analysis pages).  Price series are modelled as lists of
rationals (ordered by time); pandas/NumPy float NaN results are modelled as
`Option` with `none` for NaN.  Real-valued results (standard deviations,
correlations, powers) live in `ℝ` via `Real.sqrt` and real exponentiation.

Sources embedded here:
  - pages/2_Risk_Metrics.py : calculate_sharpe_ratio, calculate_max_drawdown,
    the per-asset results loop and the annualized-return computation, and the
    final sort by the Sharpe column;
  - pages/1_Correlation_Analysis.py : calculate_correlation (pandas
    `df.corr` for Pearson, `scipy.stats.spearmanr` after `dropna()` for
    Spearman) and the page guard on the fetched frame;
  - _App.py : the dashboard annualized volatility (np.std, population
    convention) and its copy of calculate_max_drawdown.
-/

namespace FinanceAnalysis

/-- `series.pct_change().dropna()`: simple returns `price[i]/price[i-1] - 1`,
one entry shorter than the price list (the leading NaN is dropped). -/
def pctChanges (p : List ℚ) : List ℚ :=
  List.zipWith (fun a b => b / a - 1) p p.tail

/-- Mean of a list of rationals (denominator `n`); junk value on `[]`
(callers guard emptiness). -/
def meanOf (l : List ℚ) : ℚ := l.sum / (l.length : ℚ)

/-- Sum of squared deviations from the mean. -/
def ssd (l : List ℚ) : ℚ := (l.map fun x => (x - meanOf l) ^ 2).sum

/-- `Series.mean()`: NaN (`none`) on an empty series, the mean otherwise. -/
def meanQ (l : List ℚ) : Option ℚ :=
  if l.length = 0 then none else some (meanOf l)

/-- Variance with the pandas default `ddof=1` (sample convention, denominator
`n-1`), as computed by `Series.std()` before the square root: NaN for fewer
than two observations. -/
def sampleVar (l : List ℚ) : Option ℚ :=
  if l.length < 2 then none else some (ssd l / ((l.length : ℚ) - 1))

/-- Variance with the NumPy default `ddof=0` (population convention,
denominator `n`), as computed by `np.std` before the square root: NaN on an
empty array. -/
def popVar (l : List ℚ) : Option ℚ :=
  if l.length = 0 then none else some (ssd l / (l.length : ℚ))

/-- `calculate_sharpe_ratio` from pages/2_Risk_Metrics.py:
daily returns via `pct_change().dropna()`, `annualized_return = mean * 252`,
`annualized_volatility = std() * sqrt(252)` (sample std), `0.0` when the
annualized volatility compares equal to zero, and the ratio otherwise.
When the sample std is NaN (fewer than two returns) the NaN propagates
through the comparison (`NaN == 0` is false) and the division, so the
function returns NaN, modelled as `none`. -/
noncomputable def calculate_sharpe_ratio (p : List ℚ) (risk_free_rate : ℚ) :
    Option ℝ :=
  match meanQ (pctChanges p), sampleVar (pctChanges p) with
  | some m, some v =>
      if v = 0 then some 0
      else some (((m * 252 - risk_free_rate : ℚ) : ℝ) /
        (Real.sqrt (v : ℝ) * Real.sqrt 252))
  | _, _ => none

/-- Running products `acc, acc*(1+r₁), ...` — the tail of pandas
`(1 + returns).cumprod()` once the first factor `acc` is accumulated. -/
def scanMul (acc : ℚ) : List ℚ → List ℚ
  | [] => [acc]
  | r :: rs => acc :: scanMul (acc * (1 + r)) rs

/-- `(1 + returns).cumprod()`: same length as the return list. -/
def cumprod1p : List ℚ → List ℚ
  | [] => []
  | r :: rs => scanMul (1 + r) rs

/-- Running maxima `cur, max cur y₁, ...` — the tail of pandas
`expanding(min_periods=1).max()` once the first value `cur` is seen. -/
def scanMax (cur : ℚ) : List ℚ → List ℚ
  | [] => [cur]
  | y :: ys => cur :: scanMax (max cur y) ys

/-- `expanding(min_periods=1).max()`: running maximum, same length. -/
def runningMax : List ℚ → List ℚ
  | [] => []
  | x :: xs => scanMax x xs

/-- `Series.min()`: NaN (`none`) on an empty series. -/
def listMin : List ℚ → Option ℚ
  | [] => none
  | x :: xs => some (xs.foldl min x)

/-- `calculate_max_drawdown` (identical in pages/2_Risk_Metrics.py and
_App.py): cumulative returns, running peak, `drawdown = cum/peak - 1`, and
`drawdown.min() * 100`. -/
def calculate_max_drawdown (p : List ℚ) : Option ℚ :=
  let cum := cumprod1p (pctChanges p)
  let dd := List.zipWith (fun c m => c / m - 1) cum (runningMax cum)
  (listMin dd).map (· * 100)

/-- Annualized volatility of the main dashboard (_App.py line 105):
`float(np.std(daily_change) * np.sqrt(252) * 100)` — population standard
deviation. -/
noncomputable def appAnnualizedVol (p : List ℚ) : Option ℝ :=
  (popVar (pctChanges p)).map fun v : ℚ => Real.sqrt (v : ℝ) * Real.sqrt 252 * 100

/-- Annualized volatility as computed inside `calculate_sharpe_ratio`
(pages/2_Risk_Metrics.py line 55): `daily_returns.std() * np.sqrt(252)` —
sample standard deviation. -/
noncomputable def rmAnnualizedVol (p : List ℚ) : Option ℝ :=
  (sampleVar (pctChanges p)).map fun v : ℚ => Real.sqrt (v : ℝ) * Real.sqrt 252

/-- Annualized return computed by the results loop of
pages/2_Risk_Metrics.py (lines 122-125): total return from the first and
last kept prices, `days_diff` from the requested date range with `0`
replaced by `1`, then `((1 + total_return/100) ** (365/days_diff) - 1)*100`. -/
noncomputable def annualized_return_code (p : List ℚ) (days_diff : ℕ) : ℝ :=
  let total_return : ℚ := (p.getLast?.getD 0 / p.head?.getD 0 - 1) * 100
  let d : ℕ := if days_diff = 0 then 1 else days_diff
  ((1 + (total_return : ℝ) / 100) ^ ((365 : ℝ) / (d : ℝ)) - 1) * 100

/-- Annualized return in the words of the specification: total return in
percent, window length in days with `days_elapsed == 0` replaced by `1`. -/
noncomputable def annualizedReturnSpec (total_return : ℚ) (days_elapsed : ℕ) :
    ℝ :=
  ((1 + (total_return : ℝ) / 100) ^ ((365 : ℝ) / ((max days_elapsed 1 : ℕ) : ℝ))
    - 1) * 100

/-! ### Helper lemmas about the drawdown computation -/

lemma pct_cons_cons (a x : ℚ) (q : List ℚ) :
    pctChanges (a :: x :: q) = (x / a - 1) :: pctChanges (x :: q) := rfl

lemma scanMul_pct (q : List ℚ) : ∀ (x a : ℚ), x ≠ 0 → a ≠ 0 →
    (∀ z ∈ q, z ≠ 0) →
    scanMul (x / a) (pctChanges (x :: q)) = (x :: q).map (fun z => z / a) := by
  induction q with
  | nil => intro x a hx ha _; simp [pctChanges, scanMul]
  | cons y q ih =>
    intro x a hx ha hq
    have hy : y ≠ 0 := hq y (List.mem_cons_self y q)
    rw [pct_cons_cons]
    simp only [scanMul]
    have key : x / a * (1 + (y / x - 1)) = y / a := by
      field_simp
      ring
    rw [key, ih y a hy ha fun z hz => hq z (List.mem_cons_of_mem y hz)]
    simp

lemma cumprod1p_pct (p0 : ℚ) (q : List ℚ) (h0 : p0 ≠ 0)
    (hq : ∀ z ∈ q, z ≠ 0) :
    cumprod1p (pctChanges (p0 :: q)) = q.map (fun z => z / p0) := by
  cases q with
  | nil => simp [pctChanges, cumprod1p]
  | cons x q =>
    rw [pct_cons_cons]
    simp only [cumprod1p]
    have h1 : (1 : ℚ) + (x / p0 - 1) = x / p0 := by ring
    rw [h1, scanMul_pct q x p0 (hq x (List.mem_cons_self x q)) h0
      fun z hz => hq z (List.mem_cons_of_mem x hz)]

lemma scanMax_map_div (q : List ℚ) : ∀ (cur a : ℚ), 0 < a →
    scanMax (cur / a) (q.map (fun z => z / a))
      = (scanMax cur q).map (fun z => z / a) := by
  induction q with
  | nil => intro cur a _; simp [scanMax]
  | cons y q ih =>
    intro cur a ha
    simp only [List.map_cons, scanMax]
    rw [max_div_div_right ha.le cur y, ih (max cur y) a ha]

lemma runningMax_map_div (q : List ℚ) (a : ℚ) (ha : 0 < a) :
    runningMax (q.map (fun z => z / a)) = (runningMax q).map (fun z => z / a) := by
  cases q with
  | nil => simp [runningMax]
  | cons x q =>
    simp only [List.map_cons, runningMax]
    exact scanMax_map_div q x a ha

lemma zipWith_dd_div (c : ℚ) (hc : c ≠ 0) :
    ∀ (l1 l2 : List ℚ),
      List.zipWith (fun x m => x / m - 1) (l1.map (fun z => z / c))
          (l2.map (fun z => z / c))
        = List.zipWith (fun x m => x / m - 1) l1 l2 := by
  intro l1
  induction l1 with
  | nil => intro l2; simp
  | cons a l1 ih =>
    intro l2
    cases l2 with
    | nil => simp
    | cons b l2 =>
      simp only [List.map_cons, List.zipWith_cons_cons, ih l2]
      rw [div_div_div_cancel_right₀ hc a b]

/-- With positive prices, the drawdown series of `p0 :: q` is the drawdown
series computed from `q` alone with running maxima over `q`: the leading
price only fixes the (cancelling) scale of the cumulative-return series. -/
lemma dd_shift (p0 : ℚ) (q : List ℚ) (h0 : 0 < p0) (hq : ∀ z ∈ q, 0 < z) :
    List.zipWith (fun x m => x / m - 1) (cumprod1p (pctChanges (p0 :: q)))
        (runningMax (cumprod1p (pctChanges (p0 :: q))))
      = List.zipWith (fun x m => x / m - 1) q (runningMax q) := by
  rw [cumprod1p_pct p0 q h0.ne' fun z hz => (hq z hz).ne',
    runningMax_map_div q p0 h0, zipWith_dd_div p0 h0.ne' q (runningMax q)]

lemma dd_nonpos (ys : List ℚ) : ∀ (y c : ℚ), 0 < y → 0 < c → y ≤ c →
    (∀ z ∈ ys, 0 < z) →
    ∀ d ∈ List.zipWith (fun x m => x / m - 1) (y :: ys) (scanMax c ys),
      d ≤ 0 := by
  induction ys with
  | nil =>
    intro y c hy hc hyc _ d hd
    simp only [scanMax, List.zipWith_cons_cons, List.zipWith_nil_left,
      List.mem_singleton] at hd
    rw [hd]
    have : y / c ≤ 1 := (div_le_one hc).2 hyc
    linarith
  | cons z zs ih =>
    intro y c hy hc hyc hz d hd
    simp only [scanMax, List.zipWith_cons_cons, List.mem_cons] at hd
    rcases hd with hd | hd
    · rw [hd]
      have : y / c ≤ 1 := (div_le_one hc).2 hyc
      linarith
    · exact ih z (max c z) (hz z (List.mem_cons_self z zs))
        (lt_of_lt_of_le hc (le_max_left c z)) (le_max_right c z)
        (fun w hw => hz w (List.mem_cons_of_mem z hw)) d hd

lemma dd_zero_iff (ys : List ℚ) : ∀ (y c : ℚ), 0 < y → 0 < c →
    (∀ z ∈ ys, 0 < z) →
    ((∀ d ∈ List.zipWith (fun x m => x / m - 1) (y :: ys) (scanMax c ys),
        d = 0)
      ↔ (y = c ∧ List.Chain (fun a b => a ≤ b) c ys)) := by
  induction ys with
  | nil =>
    intro y c hy hc _
    simp only [scanMax, List.zipWith_cons_cons, List.zipWith_nil_left,
      List.mem_singleton, forall_eq]
    constructor
    · intro h
      refine ⟨?_, List.Chain.nil⟩
      rw [sub_eq_zero] at h
      exact (div_eq_one_iff_eq hc.ne').1 h
    · rintro ⟨rfl, -⟩
      rw [div_self hc.ne', sub_self]
  | cons z zs ih =>
    intro y c hy hc hz
    have hzpos : 0 < z := hz z (List.mem_cons_self z zs)
    simp only [scanMax, List.zipWith_cons_cons, List.mem_cons, List.chain_cons]
    constructor
    · intro h
      have h1 : y / c - 1 = 0 := h _ (Or.inl rfl)
      have hyc : y = c := by
        rw [sub_eq_zero] at h1
        exact (div_eq_one_iff_eq hc.ne').1 h1
      have h2 : ∀ d ∈ List.zipWith (fun x m => x / m - 1) (z :: zs)
          (scanMax (max c z) zs), d = 0 := fun d hd => h d (Or.inr hd)
      have h3 := (ih z (max c z) hzpos (lt_of_lt_of_le hc (le_max_left c z))
        fun w hw => hz w (List.mem_cons_of_mem z hw)).1 h2
      have hcz : c ≤ z := by
        have hzm := h3.1
        have hle : c ≤ max c z := le_max_left c z
        rw [← hzm] at hle
        exact hle
      have hmax : max c z = z := max_eq_right_iff.2 hcz
      refine ⟨hyc, hcz, ?_⟩
      have := h3.2
      rw [hmax] at this
      exact this
    · rintro ⟨hyc, hcz, hchain⟩
      intro d hd
      rcases hd with hd | hd
      · rw [hd, hyc, div_self hc.ne', sub_self]
      · have hmax : max c z = z := max_eq_right_iff.2 hcz
        refine (ih z (max c z) hzpos (lt_of_lt_of_le hc (le_max_left c z))
          fun w hw => hz w (List.mem_cons_of_mem z hw)).2 ⟨?_, ?_⟩ d hd
        · rw [hmax]
        · rw [hmax]; exact hchain

lemma foldl_min_le_init (xs : List ℚ) : ∀ x : ℚ, xs.foldl min x ≤ x := by
  induction xs with
  | nil => intro x; simp
  | cons y ys ih =>
    intro x
    simp only [List.foldl_cons]
    exact le_trans (ih (min x y)) (min_le_left x y)

lemma foldl_min_le_mem (xs : List ℚ) : ∀ (x d : ℚ), d ∈ xs →
    xs.foldl min x ≤ d := by
  induction xs with
  | nil => intro x d hd; cases hd
  | cons y ys ih =>
    intro x d hd
    simp only [List.foldl_cons]
    rcases List.mem_cons.1 hd with hd | hd
    · rw [hd]
      exact le_trans (foldl_min_le_init ys (min x y)) (min_le_right x y)
    · exact ih (min x y) d hd

lemma foldl_min_mem (xs : List ℚ) : ∀ x : ℚ, xs.foldl min x ∈ x :: xs := by
  induction xs with
  | nil => intro x; simp
  | cons y ys ih =>
    intro x
    simp only [List.foldl_cons]
    rcases List.mem_cons.1 (ih (min x y)) with h | h
    · rw [h]
      rcases min_choice x y with hm | hm <;> rw [hm]
      · exact List.mem_cons_self x (y :: ys)
      · exact List.mem_cons_of_mem x (List.mem_cons_self y ys)
    · exact List.mem_cons_of_mem x (List.mem_cons_of_mem y h)

/-- C4 (amended): for every price series with at least two positive prices,
`calculate_max_drawdown` returns a defined value `m ≤ 0`, and `m = 0` holds
exactly when the series is non-decreasing FROM ITS SECOND POINT ON.  (The
original claim said `m = 0` iff the whole series is non-decreasing; the
cumulative-return/running-peak construction starts the peak at the first
cumulative return, so a decline from the very first price is invisible —
see the counterexample.) -/
theorem c4_max_drawdown_amended :
    ∀ (p : List ℚ), 2 ≤ p.length → (∀ x ∈ p, 0 < x) →
      ∃ m, calculate_max_drawdown p = some m ∧ m ≤ 0
        ∧ (m = 0 ↔ List.Chain' (fun a b => a ≤ b) p.tail) := by
  intro p hlen hpos
  match p, hlen with
  | p0 :: x :: xs, _ =>
    have h0 : 0 < p0 := hpos p0 (List.mem_cons_self _ _)
    have hx : 0 < x := hpos x (List.mem_cons_of_mem _ (List.mem_cons_self _ _))
    have hxs : ∀ z ∈ xs, 0 < z := fun z hz =>
      hpos z (List.mem_cons_of_mem _ (List.mem_cons_of_mem _ hz))
    have htail : ∀ z ∈ x :: xs, 0 < z := by
      intro z hz
      rcases List.mem_cons.1 hz with h | h
      · rw [h]; exact hx
      · exact hxs z h
    simp only [calculate_max_drawdown]
    rw [dd_shift p0 (x :: xs) h0 htail]
    have hshape : ∃ tl, List.zipWith (fun a m => a / m - 1) (x :: xs)
        (runningMax (x :: xs)) = (x / x - 1) :: tl := by
      cases xs with
      | nil => exact ⟨_, rfl⟩
      | cons z zs => exact ⟨_, rfl⟩
    obtain ⟨tl, htl⟩ := hshape
    have hdd0 : x / x - 1 = 0 := by rw [div_self hx.ne', sub_self]
    have hmem_all : ∀ d ∈ List.zipWith (fun a m => a / m - 1) (x :: xs)
        (scanMax x xs), d ≤ 0 :=
      dd_nonpos xs x x hx hx le_rfl hxs
    have hrm : runningMax (x :: xs) = scanMax x xs := rfl
    rw [hrm] at htl
    rw [hrm, htl]
    simp only [listMin, Option.map_some']
    refine ⟨tl.foldl min (x / x - 1) * 100, rfl, ?_, ?_⟩
    · have h1 : tl.foldl min (x / x - 1) ≤ 0 := by
        have := foldl_min_le_init tl (x / x - 1)
        rw [hdd0] at this ⊢
        exact this
      nlinarith
    · have hzero : (∀ d ∈ (x / x - 1) :: tl, d ≤ 0) := by
        rw [← htl]; exact hmem_all
      have hiff := dd_zero_iff xs x x hx hx hxs
      rw [htl] at hiff
      have hchain : List.Chain' (fun a b : ℚ => a ≤ b) (x :: xs)
          ↔ List.Chain (fun a b : ℚ => a ≤ b) x xs := Iff.rfl
      constructor
      · intro hm
        have hm0 : tl.foldl min (x / x - 1) = 0 := by
          have h100 : (100 : ℚ) ≠ 0 := by norm_num
          exact (mul_eq_zero.1 hm).resolve_right h100
        have hall : ∀ d ∈ (x / x - 1) :: tl, d = 0 := by
          intro d hd
          have hle : d ≤ 0 := hzero d hd
          have hge : tl.foldl min (x / x - 1) ≤ d := by
            rcases List.mem_cons.1 hd with h | h
            · rw [h]; exact foldl_min_le_init tl (x / x - 1)
            · exact foldl_min_le_mem tl (x / x - 1) d h
          rw [hm0] at hge
          linarith
        rw [List.tail_cons, hchain]
        exact (hiff.1 hall).2
      · intro hch
        rw [List.tail_cons, hchain] at hch
        have hall : ∀ d ∈ (x / x - 1) :: tl, d = 0 := hiff.2 ⟨rfl, hch⟩
        have hmem := foldl_min_mem tl (x / x - 1)
        have : tl.foldl min (x / x - 1) = 0 := hall _ hmem
        rw [this, zero_mul]

/-- C4 counterexample: the series `[4, 2, 3]` declines from its first price
(it is not non-decreasing), yet the code's maximum drawdown is exactly `0`,
refuting "max drawdown = 0 iff the price series is non-decreasing". -/
theorem c4_max_drawdown_counterexample :
    calculate_max_drawdown [4, 2, 3] = some 0
      ∧ ¬ List.Chain' (fun a b : ℚ => a ≤ b) [4, 2, 3] := by
  constructor
  · norm_num [calculate_max_drawdown, pctChanges, cumprod1p, scanMul,
      runningMax, scanMax, listMin]
  · intro h
    rcases List.chain'_cons.1 h with ⟨h1, _⟩
    norm_num at h1

/-- C4 witness: the amended theorem applied to the concrete positive series
`[4, 2, 3]` of length `3`. -/
theorem c4_max_drawdown_witness :
    ∃ m, calculate_max_drawdown [4, 2, 3] = some m ∧ m ≤ 0
      ∧ (m = 0 ↔ List.Chain' (fun a b : ℚ => a ≤ b) ([4, 2, 3] : List ℚ).tail) :=
  c4_max_drawdown_amended [4, 2, 3] (by norm_num)
    (by intro x hx; simp only [List.mem_cons, List.not_mem_nil, or_false] at hx
        rcases hx with rfl | rfl | rfl <;> norm_num)

/-! ### C1: the Sharpe ratio -/

lemma sampleVar_length {l : List ℚ} {v : ℚ} (h : sampleVar l = some v) :
    ¬ l.length < 2 := by
  intro hl
  rw [sampleVar, if_pos hl] at h
  exact Option.noConfusion h

/-- C1 (amended): whenever the sample standard deviation of the return
series is defined and nonzero, `calculate_sharpe_ratio` returns exactly
`(mean*252 - risk_free_rate) / (std * sqrt 252)`; whenever the sample
variance is defined and zero (a constant series of at least three points),
it returns exactly `0.0`.  However a series with fewer than two returns —
in particular a SINGLE-POINT price series — yields NaN (`none`), not `0.0`:
the sample std of fewer than two observations is NaN, `NaN == 0` is false,
and the NaN propagates through the division.  (The original claim included
single-point series among those returning `0.0`.) -/
theorem c1_sharpe_ratio_amended :
    (∀ (p : List ℚ) (r m v : ℚ), meanQ (pctChanges p) = some m →
        sampleVar (pctChanges p) = some v → v ≠ 0 →
        calculate_sharpe_ratio p r
          = some (((m * 252 - r : ℚ) : ℝ) / (Real.sqrt (v : ℝ) * Real.sqrt 252)))
    ∧ (∀ (p : List ℚ) (r : ℚ), sampleVar (pctChanges p) = some 0 →
        calculate_sharpe_ratio p r = some 0)
    ∧ (∀ (p : List ℚ) (r : ℚ), (pctChanges p).length < 2 →
        calculate_sharpe_ratio p r = none) := by
  refine ⟨?_, ?_, ?_⟩
  · intro p r m v hm hv hv0
    rw [calculate_sharpe_ratio, hm, hv]
    simp only [if_neg hv0]
  · intro p r hv
    have hlen : ¬ (pctChanges p).length < 2 := sampleVar_length hv
    have hne : ¬ (pctChanges p).length = 0 := by omega
    have hm : meanQ (pctChanges p) = some (meanOf (pctChanges p)) := by
      rw [meanQ, if_neg hne]
    rw [calculate_sharpe_ratio, hm, hv]
    simp
  · intro p r hlen
    have hv : sampleVar (pctChanges p) = none := by
      rw [sampleVar, if_pos hlen]
    rcases hm : meanQ (pctChanges p) with _ | m <;>
      rw [calculate_sharpe_ratio, hm, hv]

/-- C1 counterexample: a single-point price series returns NaN (`none`),
not `0.0`. -/
theorem c1_sharpe_ratio_counterexample :
    calculate_sharpe_ratio [100] (1/25) = none
      ∧ calculate_sharpe_ratio [100] (1/25) ≠ some 0 := by
  have h : calculate_sharpe_ratio [100] (1/25) = none := rfl
  refine ⟨h, ?_⟩
  rw [h]
  exact fun hc => Option.noConfusion hc

/-- C1 witness: the formula branch at prices `[1, 2, 1]` (returns
`[1, -1/2]`, mean `1/4`, sample variance `9/8`) with risk-free rate `1/25`. -/
theorem c1_sharpe_ratio_witness :
    calculate_sharpe_ratio [1, 2, 1] (1/25)
      = some ((((1/4 : ℚ) * 252 - 1/25 : ℚ) : ℝ)
          / (Real.sqrt ((9/8 : ℚ) : ℝ) * Real.sqrt 252)) :=
  c1_sharpe_ratio_amended.1 [1, 2, 1] (1/25) (1/4) (9/8)
    (by norm_num [meanQ, pctChanges, meanOf])
    (by norm_num [sampleVar, pctChanges, ssd, meanOf])
    (by norm_num)

/-! ### C3: the two volatility conventions -/

lemma ssd_nonneg (l : List ℚ) : 0 ≤ ssd l := by
  refine List.sum_nonneg ?_
  intro x hx
  rcases List.mem_map.1 hx with ⟨y, _, rfl⟩
  positivity

/-- C3 (amended): the dashboard volatility (_App.py, `np.std`, population
convention, denominator `n`) and the volatility inside
`calculate_sharpe_ratio` (pandas `.std()`, sample convention, denominator
`n-1`) do NOT use the same denominator: for a return series of length at
least 2 they agree (up to the `*100` scaling) exactly when the variance is
zero.  (The original claim asserted they always agree.) -/
theorem c3_volatility_convention_amended :
    ∀ (p : List ℚ) (a b : ℝ), 2 ≤ (pctChanges p).length →
      appAnnualizedVol p = some a → rmAnnualizedVol p = some b →
      (a = b * 100 ↔ popVar (pctChanges p) = some 0) := by
  intro p a b hlen ha hb
  set l := pctChanges p with hl
  have hne : ¬ l.length = 0 := by omega
  have hlt : ¬ l.length < 2 := by omega
  have hn2 : (2 : ℚ) ≤ (l.length : ℚ) := by exact_mod_cast hlen
  have hpop : popVar l = some (ssd l / (l.length : ℚ)) := by
    rw [popVar, if_neg hne]
  have hsam : sampleVar l = some (ssd l / ((l.length : ℚ) - 1)) := by
    rw [sampleVar, if_neg hlt]
  set vp : ℚ := ssd l / (l.length : ℚ) with hvp
  set vs : ℚ := ssd l / ((l.length : ℚ) - 1) with hvs
  rw [appAnnualizedVol, ← hl, hpop] at ha
  rw [rmAnnualizedVol, ← hl, hsam] at hb
  simp only [Option.map_some'] at ha hb
  have haa : Real.sqrt (vp : ℝ) * Real.sqrt 252 * 100 = a := Option.some.inj ha
  have hbb : Real.sqrt (vs : ℝ) * Real.sqrt 252 = b := Option.some.inj hb
  have hne0 : (l.length : ℚ) ≠ 0 := by
    intro hc
    exact hne (by exact_mod_cast hc)
  have hne1 : ((l.length : ℚ) - 1) ≠ 0 := by
    intro hc
    have : (l.length : ℚ) = 1 := by linarith
    rw [this] at hn2
    norm_num at hn2
  have hvpq : (0 : ℚ) ≤ vp := by
    rw [hvp]
    exact div_nonneg (ssd_nonneg l) (by positivity)
  have hvsq : (0 : ℚ) ≤ vs := by
    rw [hvs]
    exact div_nonneg (ssd_nonneg l) (by linarith)
  have hvpnn : (0 : ℝ) ≤ ((vp : ℚ) : ℝ) := by exact_mod_cast hvpq
  have hvsnn : (0 : ℝ) ≤ ((vs : ℚ) : ℝ) := by exact_mod_cast hvsq
  have hs : (0 : ℝ) < Real.sqrt 252 := Real.sqrt_pos.2 (by norm_num)
  constructor
  · intro hab
    rw [← haa, ← hbb] at hab
    have h1 : Real.sqrt ((vp : ℚ) : ℝ) = Real.sqrt ((vs : ℚ) : ℝ) := by
      have h100 : (100 : ℝ) ≠ 0 := by norm_num
      have hstep := mul_right_cancel₀ h100 hab
      exact mul_right_cancel₀ hs.ne' hstep
    have h2 : vp = vs := by
      exact_mod_cast (Real.sqrt_inj hvpnn hvsnn).1 h1
    rw [hvp, hvs] at h2
    have h4 : ssd l = 0 := by
      rw [div_eq_div_iff hne0 hne1] at h2
      nlinarith [h2]
    rw [hpop, hvp, h4, zero_div]
  · intro h0
    rw [hpop] at h0
    have h4 : vp = 0 := Option.some.inj h0
    have hssd : ssd l = 0 := by
      rw [hvp] at h4
      field_simp at h4
      exact h4
    have hvs0 : vs = 0 := by rw [hvs, hssd, zero_div]
    rw [← haa, ← hbb, h4, hvs0]

/-- C3 counterexample: on prices `[1, 2, 3]` (returns `[1, 1/2]`,
population variance `1/16`, sample variance `1/8`) the dashboard volatility
differs from `calculate_sharpe_ratio`'s volatility times 100. -/
theorem c3_volatility_counterexample :
    appAnnualizedVol [1, 2, 3] ≠ (rmAnnualizedVol [1, 2, 3]).map (fun x => x * 100) := by
  have h1 : appAnnualizedVol [1, 2, 3]
      = some (Real.sqrt ((1/16 : ℚ) : ℝ) * Real.sqrt 252 * 100) := by
    norm_num [appAnnualizedVol, popVar, pctChanges, ssd, meanOf]
  have h2 : rmAnnualizedVol [1, 2, 3]
      = some (Real.sqrt ((1/8 : ℚ) : ℝ) * Real.sqrt 252) := by
    norm_num [rmAnnualizedVol, sampleVar, pctChanges, ssd, meanOf]
  rw [h1, h2]
  intro h
  simp only [Option.map_some', Option.some.injEq] at h
  have hs : (0 : ℝ) < Real.sqrt 252 := Real.sqrt_pos.2 (by norm_num)
  have h3 : Real.sqrt ((1/16 : ℚ) : ℝ) = Real.sqrt ((1/8 : ℚ) : ℝ) := by
    have h100 : (100 : ℝ) ≠ 0 := by norm_num
    have := mul_right_cancel₀ h100 h
    exact mul_right_cancel₀ hs.ne' this
  have h4 : ((1/16 : ℚ) : ℝ) = ((1/8 : ℚ) : ℝ) :=
    (Real.sqrt_inj (by norm_num) (by norm_num)).1 h3
  norm_num at h4

/-- C3 witness: the amended theorem instantiated at prices `[1, 2, 3]`;
both sides of the resulting equivalence are false there. -/
theorem c3_volatility_witness :
    (Real.sqrt ((1/16 : ℚ) : ℝ) * Real.sqrt 252 * 100
        = Real.sqrt ((1/8 : ℚ) : ℝ) * Real.sqrt 252 * 100
      ↔ popVar (pctChanges [1, 2, 3]) = some 0) :=
  c3_volatility_convention_amended [1, 2, 3] _ _
    (by norm_num [pctChanges])
    (by norm_num [appAnnualizedVol, popVar, pctChanges, ssd, meanOf])
    (by norm_num [rmAnnualizedVol, sampleVar, pctChanges, ssd, meanOf])

/-! ### C8: the annualized return window formula -/

/-- C8 (confirmed): the annualized return computed by the results loop
equals the specification's formula
`((1 + total_return/100) ^ (365/days_elapsed) - 1) * 100` with
`total_return = (last/first - 1) * 100`, where a zero-day window is
replaced by one day; in particular `days_diff = 0` produces the same value
as `days_diff = 1` instead of dividing by zero. -/
theorem c8_annualized_return_formula :
    ∀ (p : List ℚ) (days_diff : ℕ),
      (annualized_return_code p days_diff
          = annualizedReturnSpec ((p.getLast?.getD 0 / p.head?.getD 0 - 1) * 100)
              days_diff)
      ∧ (days_diff = 0 →
          annualized_return_code p days_diff = annualized_return_code p 1) := by
  intro p d
  constructor
  · have hd : ((if d = 0 then 1 else d : ℕ) : ℝ) = ((max d 1 : ℕ) : ℝ) := by
      cases d with
      | zero => norm_num
      | succ n =>
        have h1 : ¬ (n + 1 = 0) := Nat.succ_ne_zero n
        have h2 : max (n + 1) 1 = n + 1 := Nat.max_eq_left (Nat.succ_le_succ (Nat.zero_le n))
        rw [if_neg h1, h2]
    rw [annualized_return_code, annualizedReturnSpec, hd]
  · intro h0
    rw [h0]
    rfl

/-- C8 witness: the zero-day substitution at prices `[100, 121]`. -/
theorem c8_annualized_return_witness :
    annualized_return_code [100, 121] 0 = annualized_return_code [100, 121] 1 :=
  (c8_annualized_return_formula [100, 121] 0).2 rfl

/-! ### Aligned data frames and the correlation engine

A fetched multi-asset frame (`data_df`) is a timestamp index plus named
columns of optional prices; `none` models a missing value (NaN) at that
timestamp, as produced by the outer-joined multi-ticker download. -/

structure Frame where
  index : List ℕ
  cols : List (String × List (Option ℚ))

/-- Well-formedness: every column has one entry per timestamp. -/
def Frame.wf (f : Frame) : Prop :=
  ∀ c ∈ f.cols, c.2.length = f.index.length

/-- Row `r` is complete: every column has a value there. -/
def rowOk (f : Frame) (r : ℕ) : Bool :=
  f.cols.all fun c => (c.2.getD r none).isSome

/-- Positions of the rows kept by `DataFrame.dropna()`. -/
def keepIdx (f : Frame) : List ℕ :=
  (List.range f.index.length).filter (rowOk f)

/-- `df.dropna()`: keep exactly the rows in which every column has a
value (complete-case / inner-join alignment). -/
def dropna (f : Frame) : Frame :=
  { index := (keepIdx f).map fun r => f.index.getD r 0,
    cols := f.cols.map fun c => (c.1, (keepIdx f).map fun r => c.2.getD r none) }

/-- pandas `DataFrame.empty`: some axis has length zero. -/
def pandasEmpty (f : Frame) : Bool := f.index.isEmpty || f.cols.isEmpty

/-- The guard of pages/1_Correlation_Analysis.py lines 101-103: the page
stops (`st.stop()`) iff the fetched frame is empty or has fewer than two
columns; otherwise `calculate_correlation` runs. -/
def correlationPageStops (f : Frame) : Bool :=
  pandasEmpty f || decide (f.cols.length < 2)

/-- Paired observations of two optional columns: the rows where BOTH
columns have a value (pandas pairwise-complete masking in `df.corr`). -/
def colPairs (xs ys : List (Option ℚ)) : List (ℚ × ℚ) :=
  (xs.zip ys).filterMap fun q => q.1.bind fun u => q.2.map fun w => (u, w)

/-- Positions of the rows used for one pairwise Pearson entry. -/
def pairIdx (xs ys : List (Option ℚ)) : List ℕ :=
  (List.range xs.length).filter fun r =>
    (xs.getD r none).isSome && (ys.getD r none).isSome

def sumPairs (g : ℚ × ℚ → ℚ) (l : List (ℚ × ℚ)) : ℚ := (l.map g).sum

def meanFst (l : List (ℚ × ℚ)) : ℚ := sumPairs Prod.fst l / (l.length : ℚ)

def meanSnd (l : List (ℚ × ℚ)) : ℚ := sumPairs Prod.snd l / (l.length : ℚ)

/-- Observations centered at the two sample means. -/
def centered (l : List (ℚ × ℚ)) : List (ℚ × ℚ) :=
  l.map fun q => (q.1 - meanFst l, q.2 - meanSnd l)

def sxx (l : List (ℚ × ℚ)) : ℚ := sumPairs (fun q => q.1 ^ 2) (centered l)

def syy (l : List (ℚ × ℚ)) : ℚ := sumPairs (fun q => q.2 ^ 2) (centered l)

def sxy (l : List (ℚ × ℚ)) : ℚ := sumPairs (fun q => q.1 * q.2) (centered l)

/-- The Pearson correlation coefficient
`Σ dx dy / sqrt (Σ dx² * Σ dy²)` over a list of paired observations, NaN
(`none`) when there are no observations or either column is constant on
them (0/0 in floats) — the common core of pandas `nancorr` and NumPy
`corrcoef`. -/
noncomputable def corrCore (l : List (ℚ × ℚ)) : Option ℝ :=
  if l.length = 0 ∨ sxx l = 0 ∨ syy l = 0 then none
  else some (((sxy l : ℚ) : ℝ)
    / Real.sqrt (((sxx l : ℚ) : ℝ) * ((syy l : ℚ) : ℝ)))

/-- `scipy.stats.rankdata` with the default average method: rank of `x` is
(number of strictly smaller values) + (ties including itself + 1)/2. -/
def rankdata (l : List ℚ) : List ℚ :=
  l.map fun x => ((l.countP fun y => decide (y < x)) : ℚ)
    + (((l.countP fun y => decide (y = x)) : ℚ) + 1) / 2

/-- The ranked cleaned columns fed to `spearmanr(df_cleaned, axis=0)`. -/
def rankedCols (f : Frame) : List (List ℚ) :=
  (dropna f).cols.map fun c => rankdata c.2.reduceOption

/-- `spearmanr(df_cleaned, axis=0)` wrapped in
`pd.DataFrame(..., index=df_cleaned.columns, columns=df_cleaned.columns)`:
with exactly two columns `spearmanr` returns a SCALAR, which
`pd.DataFrame(scalar, index, columns)` broadcasts to all four cells; with
any other column count it returns the matrix of pairwise Pearson
correlations of the ranked columns. -/
noncomputable def spearmanFrame (f : Frame) : List (List (Option ℝ)) :=
  match rankedCols f with
  | [x, y] =>
      [[corrCore (x.zip y), corrCore (x.zip y)],
       [corrCore (x.zip y), corrCore (x.zip y)]]
  | rc => rc.map fun x => rc.map fun y => corrCore (x.zip y)

/-- `calculate_correlation` from pages/1_Correlation_Analysis.py.
For `'spearman'`: `df.dropna()` first; if nothing remains, return
`pd.DataFrame(index=df.columns, columns=df.columns)` — an all-NaN
assets × assets matrix; otherwise rank the cleaned columns and correlate
the ranks (`spearmanFrame`).  Any other method falls through to pandas
`df.corr(method)`, i.e. pairwise-complete Pearson. -/
noncomputable def calculate_correlation (f : Frame) (method : String) :
    List (List (Option ℝ)) :=
  if method = "spearman" then
    if (dropna f).index.isEmpty then f.cols.map fun _ => f.cols.map fun _ => none
    else spearmanFrame f
  else
    f.cols.map fun a => f.cols.map fun b => corrCore (colPairs a.2 b.2)

/-- Entry `(i, j)` of a matrix: `none` when out of range, `some cell`
otherwise (the cell itself is an optional correlation). -/
def mEntry (M : List (List (Option ℝ))) (i j : ℕ) : Option (Option ℝ) :=
  (M[i]?).bind fun row => row[j]?

/-! ### The Risk Metrics results loop and ranking -/

structure MetricsRow where
  asset : String
  sharpe : Option ℝ
  annRet : ℝ
  mdd : Option ℚ

/-- The results loop of pages/2_Risk_Metrics.py lines 111-133: for each
column, coerce to numeric and drop missing values; skip the asset only if
nothing remains; otherwise compute the three metrics and append a row. -/
noncomputable def pageRows (f : Frame) (days_diff : ℕ) (rfr : ℚ) :
    List MetricsRow :=
  f.cols.filterMap fun c =>
    if c.2.reduceOption.isEmpty then none
    else some { asset := c.1,
                sharpe := calculate_sharpe_ratio c.2.reduceOption rfr,
                annRet := annualized_return_code c.2.reduceOption days_diff,
                mdd := calculate_max_drawdown c.2.reduceOption }

/-- Stable insertion (a new element goes before the first element whose key
is at least as large), keeping ties in input order. -/
def insertByKey (x : String × ℚ) : List (String × ℚ) → List (String × ℚ)
  | [] => [x]
  | y :: ys => if x.2 ≤ y.2 then x :: y :: ys else y :: insertByKey x ys

/-- Stable ascending insertion sort on the numeric key. -/
def sortAscByKey : List (String × ℚ) → List (String × ℚ)
  | [] => []
  | x :: xs => insertByKey x (sortAscByKey xs)

/-- `results_df.sort_values(by='Sharpe_Sort', ascending=False)` from
pages/2_Risk_Metrics.py line 135: pandas `nargsort` argsorts ascending on
the single key column (NumPy's introsort runs a stable insertion sort for
the small arrays arising here — at most seven assets) and then reverses
the permutation for `ascending=False`; no other column takes part in the
comparison, so rows with equal keys come out in reverse input order. -/
def results_df_sorted (rows : List (String × ℚ)) : List (String × ℚ) :=
  (sortAscByKey rows).reverse

/-! ### Cauchy-Schwarz and the basic properties of `corrCore` -/

lemma sumPairs_cons (g : ℚ × ℚ → ℚ) (q : ℚ × ℚ) (l : List (ℚ × ℚ)) :
    sumPairs g (q :: l) = g q + sumPairs g l := by
  simp [sumPairs]

lemma sumPairs_nonneg (g : ℚ × ℚ → ℚ) (l : List (ℚ × ℚ))
    (h : ∀ q ∈ l, 0 ≤ g q) : 0 ≤ sumPairs g l := by
  refine List.sum_nonneg ?_
  intro x hx
  rcases List.mem_map.1 hx with ⟨q, hq, rfl⟩
  exact h q hq

lemma sumPairs_congr {g g' : ℚ × ℚ → ℚ} (l : List (ℚ × ℚ))
    (h : ∀ q ∈ l, g q = g' q) : sumPairs g l = sumPairs g' l := by
  unfold sumPairs
  rw [List.map_congr_left h]

lemma sumPairs_map (g : ℚ × ℚ → ℚ) (h : ℚ × ℚ → ℚ × ℚ) (l : List (ℚ × ℚ)) :
    sumPairs g (l.map h) = sumPairs (fun q => g (h q)) l := by
  simp only [sumPairs, List.map_map]
  rfl

lemma sumPairs_expand (a b : ℚ) (l : List (ℚ × ℚ)) :
    sumPairs (fun q => (b * q.1 - a * q.2) ^ 2) l
      = b ^ 2 * sumPairs (fun q => q.1 ^ 2) l
        - 2 * a * b * sumPairs (fun q => q.1 * q.2) l
        + a ^ 2 * sumPairs (fun q => q.2 ^ 2) l := by
  induction l with
  | nil => simp [sumPairs]
  | cons q l ih =>
    rw [sumPairs_cons, sumPairs_cons, sumPairs_cons, sumPairs_cons, ih]
    ring

/-- Cauchy-Schwarz for a list of paired observations. -/
lemma cauchy_schwarz_list (l : List (ℚ × ℚ)) :
    sumPairs (fun q => q.1 * q.2) l ^ 2
      ≤ sumPairs (fun q => q.1 ^ 2) l * sumPairs (fun q => q.2 ^ 2) l := by
  induction l with
  | nil => simp [sumPairs]
  | cons q l ih =>
    rw [sumPairs_cons, sumPairs_cons, sumPairs_cons]
    have hnn : 0 ≤ sumPairs (fun w => (q.2 * w.1 - q.1 * w.2) ^ 2) l :=
      sumPairs_nonneg _ l fun w _ => sq_nonneg _
    rw [sumPairs_expand q.1 q.2 l] at hnn
    nlinarith [ih, hnn]

lemma meanFst_swap (l : List (ℚ × ℚ)) :
    meanFst (l.map Prod.swap) = meanSnd l := by
  simp [meanFst, meanSnd, sumPairs_map]

lemma meanSnd_swap (l : List (ℚ × ℚ)) :
    meanSnd (l.map Prod.swap) = meanFst l := by
  simp [meanFst, meanSnd, sumPairs_map]

lemma centered_swap (l : List (ℚ × ℚ)) :
    centered (l.map Prod.swap) = (centered l).map Prod.swap := by
  simp only [centered, List.map_map]
  rw [meanFst_swap, meanSnd_swap]
  rfl

lemma sxx_swap (l : List (ℚ × ℚ)) : sxx (l.map Prod.swap) = syy l := by
  rw [sxx, syy, centered_swap, sumPairs_map]
  rfl

lemma syy_swap (l : List (ℚ × ℚ)) : syy (l.map Prod.swap) = sxx l := by
  rw [syy, sxx, centered_swap, sumPairs_map]
  rfl

lemma sxy_swap (l : List (ℚ × ℚ)) : sxy (l.map Prod.swap) = sxy l := by
  rw [sxy, sxy, centered_swap, sumPairs_map]
  exact sumPairs_congr _ fun q _ => mul_comm q.2 q.1

/-- `corrCore` is symmetric in its two coordinates. -/
lemma corrCore_swap (l : List (ℚ × ℚ)) :
    corrCore (l.map Prod.swap) = corrCore l := by
  rw [corrCore, corrCore, sxx_swap, syy_swap, sxy_swap, List.length_map]
  by_cases h : l.length = 0 ∨ sxx l = 0 ∨ syy l = 0
  · rw [if_pos (by tauto), if_pos h]
  · rw [if_neg (by tauto), if_neg h,
      mul_comm (((syy l : ℚ) : ℝ)) (((sxx l : ℚ) : ℝ))]

lemma meanFst_eq_meanSnd {l : List (ℚ × ℚ)} (h : ∀ q ∈ l, q.1 = q.2) :
    meanFst l = meanSnd l := by
  rw [meanFst, meanSnd, sumPairs_congr l h]

lemma centered_self {l : List (ℚ × ℚ)} (h : ∀ q ∈ l, q.1 = q.2) :
    ∀ q ∈ centered l, q.1 = q.2 := by
  intro q hq
  rcases List.mem_map.1 hq with ⟨w, hw, rfl⟩
  simp only
  rw [h w hw, meanFst_eq_meanSnd h]

/-- On self-paired data `corrCore` is NaN or exactly `1`. -/
lemma corrCore_self {l : List (ℚ × ℚ)} (h : ∀ q ∈ l, q.1 = q.2) :
    corrCore l = none ∨ corrCore l = some 1 := by
  have hxy : sxy l = sxx l := by
    rw [sxy, sxx]
    exact sumPairs_congr _ fun q hq => by rw [centered_self h q hq]; ring
  have hyy : syy l = sxx l := by
    rw [syy, sxx]
    exact sumPairs_congr _ fun q hq => by rw [centered_self h q hq]
  by_cases hc : l.length = 0 ∨ sxx l = 0 ∨ syy l = 0
  · left
    rw [corrCore, if_pos hc]
  · right
    rw [corrCore, if_neg hc, hxy, hyy]
    push_neg at hc
    have hnn : (0 : ℚ) ≤ sxx l := sumPairs_nonneg _ _ fun q _ => sq_nonneg _
    have hpos : (0 : ℝ) < ((sxx l : ℚ) : ℝ) := by
      have : (0 : ℚ) < sxx l := lt_of_le_of_ne hnn (Ne.symm hc.2.1)
      exact_mod_cast this
    rw [Real.sqrt_mul_self hpos.le, div_self hpos.ne']

/-- A defined `corrCore` value lies in `[-1, 1]` (Cauchy-Schwarz). -/
lemma corrCore_bound {l : List (ℚ × ℚ)} {x : ℝ} (h : corrCore l = some x) :
    -1 ≤ x ∧ x ≤ 1 := by
  rw [corrCore] at h
  by_cases hc : l.length = 0 ∨ sxx l = 0 ∨ syy l = 0
  · rw [if_pos hc] at h
    exact absurd h (by simp)
  · rw [if_neg hc] at h
    push_neg at hc
    obtain ⟨-, hxx, hyy⟩ := hc
    have hxnn : (0 : ℚ) ≤ sxx l := sumPairs_nonneg _ _ fun q _ => sq_nonneg _
    have hynn : (0 : ℚ) ≤ syy l := sumPairs_nonneg _ _ fun q _ => sq_nonneg _
    have hxpos : (0 : ℚ) < sxx l := lt_of_le_of_ne hxnn (Ne.symm hxx)
    have hypos : (0 : ℚ) < syy l := lt_of_le_of_ne hynn (Ne.symm hyy)
    have hcs : sxy l ^ 2 ≤ sxx l * syy l := cauchy_schwarz_list (centered l)
    have hprod : (0 : ℝ) < ((sxx l : ℚ) : ℝ) * ((syy l : ℚ) : ℝ) := by
      have : (0 : ℚ) < sxx l * syy l := mul_pos hxpos hypos
      exact_mod_cast this
    have hx := Option.some.inj h
    have hx2 : x ^ 2 ≤ 1 := by
      rw [← hx, div_pow, Real.sq_sqrt hprod.le, div_le_one hprod]
      have : ((sxy l ^ 2 : ℚ) : ℝ) ≤ ((sxx l * syy l : ℚ) : ℝ) := by
        exact_mod_cast hcs
      push_cast at this
      linarith
    constructor
    · nlinarith [hx2, sq_nonneg (x + 1)]
    · nlinarith [hx2, sq_nonneg (x - 1)]

/-! ### Matrix-entry lemmas for map-generated square matrices -/

lemma mEntry_map {α : Type} (l : List α) (g : α → α → Option ℝ) (i j : ℕ) :
    mEntry (l.map fun a => l.map fun b => g a b) i j
      = (l[i]?).bind fun a => (l[j]?).map fun b => g a b := by
  rw [mEntry, List.getElem?_map]
  rcases l[i]? with _ | a
  · rfl
  · simp only [Option.map_some', Option.some_bind]
    exact List.getElem?_map (g a) l j

lemma mapMatrix_symm {α : Type} (l : List α) (g : α → α → Option ℝ)
    (hsymm : ∀ a b, g a b = g b a) (i j : ℕ) :
    mEntry (l.map fun a => l.map fun b => g a b) i j
      = mEntry (l.map fun a => l.map fun b => g a b) j i := by
  rw [mEntry_map, mEntry_map]
  rcases l[i]? with _ | a <;> rcases l[j]? with _ | b <;>
    simp only [Option.none_bind, Option.some_bind, Option.map_none',
      Option.map_some']
  exact congrArg some (hsymm a b)

lemma mapMatrix_bound {α : Type} (l : List α) (g : α → α → Option ℝ)
    (hbound : ∀ a b x, g a b = some x → -1 ≤ x ∧ x ≤ 1) (i j : ℕ) (x : ℝ)
    (h : mEntry (l.map fun a => l.map fun b => g a b) i j = some (some x)) :
    -1 ≤ x ∧ x ≤ 1 := by
  rw [mEntry_map] at h
  rcases hi : l[i]? with _ | a
  · rw [hi] at h
    exact absurd h (by simp)
  · rw [hi] at h
    rcases hj : l[j]? with _ | b
    · rw [hj] at h
      exact absurd h (by simp)
    · rw [hj] at h
      simp only [Option.some_bind, Option.map_some', Option.some.injEq] at h
      exact hbound a b x h

lemma mapMatrix_diag {α : Type} (l : List α) (g : α → α → Option ℝ)
    (hdiag : ∀ a, g a a = none ∨ g a a = some 1) (i : ℕ) (x : ℝ)
    (h : mEntry (l.map fun a => l.map fun b => g a b) i i = some (some x)) :
    x = 1 := by
  rw [mEntry_map] at h
  rcases hi : l[i]? with _ | a
  · rw [hi] at h
    exact absurd h (by simp)
  · rw [hi] at h
    simp only [Option.some_bind, Option.map_some', Option.some.injEq] at h
    rcases hdiag a with hd | hd
    · rw [hd] at h
      exact absurd h (by simp)
    · rw [hd] at h
      exact (Option.some.inj h).symm

lemma mapMatrix_square {α : Type} (l : List α) (g : α → α → Option ℝ) :
    (l.map fun a => l.map fun b => g a b).length = l.length
      ∧ ∀ row ∈ l.map fun a => l.map fun b => g a b, row.length = l.length := by
  constructor
  · simp
  · intro row hrow
    rcases List.mem_map.1 hrow with ⟨a, -, rfl⟩
    simp

/-! ### The pairing combinators -/

lemma optPairExtract_swap (q : Option ℚ × Option ℚ) :
    ((Prod.swap q).1.bind fun u => (Prod.swap q).2.map fun w => (u, w))
      = (q.1.bind fun u => q.2.map fun w => (u, w)).map Prod.swap := by
  rcases q with ⟨_ | u, _ | w⟩ <;> rfl

lemma colPairs_swap (xs ys : List (Option ℚ)) :
    colPairs ys xs = (colPairs xs ys).map Prod.swap := by
  rw [colPairs, colPairs, ← List.zip_swap xs ys, List.filterMap_map,
    List.map_filterMap]
  have hfun : ((fun q : Option ℚ × Option ℚ =>
        q.1.bind fun u => q.2.map fun w => (u, w)) ∘ Prod.swap)
      = fun q : Option ℚ × Option ℚ =>
        ((q.1.bind fun u => q.2.map fun w => (u, w)).map Prod.swap) :=
    funext fun q => optPairExtract_swap q
  rw [hfun]

lemma zip_self_fsteq {α : Type} (x : List α) : ∀ q ∈ x.zip x, q.1 = q.2 := by
  induction x with
  | nil => intro q hq; cases hq
  | cons a x ih =>
    intro q hq
    rw [List.zip_cons_cons] at hq
    rcases List.mem_cons.1 hq with rfl | hq
    · rfl
    · exact ih q hq

lemma colPairs_self_fsteq (xs : List (Option ℚ)) :
    ∀ q ∈ colPairs xs xs, q.1 = q.2 := by
  intro q hq
  rcases List.mem_filterMap.1 hq with ⟨w, hw, hext⟩
  have h12 : w.1 = w.2 := zip_self_fsteq xs w hw
  rcases w with ⟨w1, w2⟩
  simp only at h12
  subst h12
  rcases w1 with _ | v
  · exact absurd hext (by simp)
  · simp only [Option.some_bind, Option.map_some', Option.some.injEq] at hext
    rw [← hext]

/-! ### Shape lemmas for `calculate_correlation` -/

lemma calc_corr_pearson (f : Frame) (method : String)
    (hm : ¬ method = "spearman") :
    calculate_correlation f method
      = f.cols.map fun a => f.cols.map fun b => corrCore (colPairs a.2 b.2) := by
  rw [calculate_correlation, if_neg hm]

lemma calc_corr_spearman_empty (f : Frame)
    (he : (dropna f).index.isEmpty = true) :
    calculate_correlation f "spearman"
      = f.cols.map fun _ => f.cols.map fun _ => none := by
  rw [calculate_correlation, if_pos rfl, if_pos he]

lemma calc_corr_spearman_data (f : Frame)
    (he : ¬ (dropna f).index.isEmpty = true) :
    calculate_correlation f "spearman" = spearmanFrame f := by
  rw [calculate_correlation, if_pos rfl, if_neg he]

lemma rankedCols_length (f : Frame) : (rankedCols f).length = f.cols.length := by
  rw [rankedCols]
  simp [dropna]

lemma spearmanFrame_two (f : Frame) (x y : List ℚ)
    (h : rankedCols f = [x, y]) :
    spearmanFrame f
      = [[corrCore (x.zip y), corrCore (x.zip y)],
         [corrCore (x.zip y), corrCore (x.zip y)]] := by
  rw [spearmanFrame, h]

lemma spearmanFrame_big (f : Frame) (h : ¬ (rankedCols f).length = 2) :
    spearmanFrame f
      = (rankedCols f).map fun x => (rankedCols f).map fun y =>
          corrCore (x.zip y) := by
  rw [spearmanFrame]
  rcases hrc : rankedCols f with _ | ⟨x, _ | ⟨y, _ | ⟨z, t⟩⟩⟩
  · rfl
  · rfl
  · rw [hrc] at h
    simp at h
  · rfl

/-! ### The broadcast 2 × 2 matrix -/

lemma mEntry_bcast_lt (rho : Option ℝ) (i j : ℕ) (hi : i < 2) (hj : j < 2) :
    mEntry [[rho, rho], [rho, rho]] i j = some rho := by
  interval_cases i <;> interval_cases j <;> rfl

lemma mEntry_bcast_ge (rho : Option ℝ) (i j : ℕ) (h : ¬ (i < 2 ∧ j < 2)) :
    mEntry [[rho, rho], [rho, rho]] i j = none := by
  rcases i with _ | _ | i <;> rcases j with _ | _ | j <;>
    first
      | rfl
      | exact absurd ⟨by omega, by omega⟩ h

/-- C2 (amended): for every frame with at least two columns and either
method, the correlation matrix is square with one row and column per
asset, symmetric, and every defined entry lies in `[-1, 1]`; every defined
diagonal entry equals `1.0` under Pearson, and under Spearman with three
or more assets.  But under Spearman with EXACTLY TWO assets,
`scipy.stats.spearmanr` returns a scalar and `pd.DataFrame` broadcasts it,
so all four entries — the diagonal included — equal the pair's Spearman
coefficient, which need not be `1.0` (see the counterexample); and a
constant column makes its Pearson diagonal entry NaN rather than `1.0`
(`0/0`), which is why the diagonal statements are about defined entries. -/
theorem c2_correlation_matrix_amended :
    ∀ (f : Frame) (method : String), 2 ≤ f.cols.length →
      ((calculate_correlation f method).length = f.cols.length
        ∧ ∀ row ∈ calculate_correlation f method, row.length = f.cols.length)
      ∧ (∀ i j, mEntry (calculate_correlation f method) i j
            = mEntry (calculate_correlation f method) j i)
      ∧ (∀ i j x, mEntry (calculate_correlation f method) i j = some (some x) →
            -1 ≤ x ∧ x ≤ 1)
      ∧ (¬ method = "spearman" → ∀ i x,
            mEntry (calculate_correlation f method) i i = some (some x) →
            x = 1)
      ∧ (method = "spearman" → ¬ f.cols.length = 2 → ∀ i x,
            mEntry (calculate_correlation f method) i i = some (some x) →
            x = 1)
      ∧ (method = "spearman" → f.cols.length = 2 →
            ¬ (dropna f).index.isEmpty = true →
            ∃ rho, calculate_correlation f method = [[rho, rho], [rho, rho]]) := by
  intro f method hcols
  by_cases hm : method = "spearman"
  · subst hm
    by_cases he : (dropna f).index.isEmpty = true
    · rw [calc_corr_spearman_empty f he]
      refine ⟨mapMatrix_square f.cols
        (fun _ _ : String × List (Option ℚ) => (none : Option ℝ)),
        ?_, ?_, ?_, ?_, ?_⟩
      · intro i j
        exact mapMatrix_symm f.cols
          (fun _ _ : String × List (Option ℚ) => (none : Option ℝ))
          (fun a b => rfl) i j
      · intro i j x h
        exact mapMatrix_bound f.cols
          (fun _ _ : String × List (Option ℚ) => (none : Option ℝ))
          (fun a b x hx => absurd hx (by simp)) i j x h
      · intro hne
        exact absurd rfl hne
      · intro _ _ i x h
        exact mapMatrix_diag f.cols
          (fun _ _ : String × List (Option ℚ) => (none : Option ℝ))
          (fun a => Or.inl rfl) i x h
      · intro _ _ hne
        exact absurd he hne
    · rw [calc_corr_spearman_data f he]
      by_cases h2 : (rankedCols f).length = 2
      · obtain ⟨u, w, huw⟩ := List.length_eq_two.1 h2
        have hcols2 : f.cols.length = 2 := by
          rw [← rankedCols_length f]
          exact h2
        rw [spearmanFrame_two f u w huw]
        refine ⟨⟨?_, ?_⟩, ?_, ?_, ?_, ?_, ?_⟩
        · rw [hcols2]
          rfl
        · intro row hrow
          rw [hcols2]
          rcases List.mem_cons.1 hrow with rfl | hrow
          · rfl
          · rcases List.mem_cons.1 hrow with rfl | hrow
            · rfl
            · cases hrow
        · intro i j
          by_cases hij : i < 2 ∧ j < 2
          · rw [mEntry_bcast_lt _ _ _ hij.1 hij.2,
              mEntry_bcast_lt _ _ _ hij.2 hij.1]
          · rw [mEntry_bcast_ge _ _ _ hij,
              mEntry_bcast_ge _ _ _ (by tauto)]
        · intro i j x h
          by_cases hij : i < 2 ∧ j < 2
          · rw [mEntry_bcast_lt _ _ _ hij.1 hij.2] at h
            exact corrCore_bound (Option.some.inj h)
          · rw [mEntry_bcast_ge _ _ _ hij] at h
            exact absurd h (by simp)
        · intro hne
          exact absurd rfl hne
        · intro _ hne
          exact absurd hcols2 hne
        · intro _ _ _
          exact ⟨corrCore (u.zip w), rfl⟩
      · have hcols2 : ¬ f.cols.length = 2 := by
          rw [← rankedCols_length f]
          exact h2
        rw [spearmanFrame_big f h2]
        have hsymmS : ∀ x y : List ℚ,
            corrCore (x.zip y) = corrCore (y.zip x) := by
          intro x y
          rw [← List.zip_swap x y, corrCore_swap]
        refine ⟨?_, ?_, ?_, ?_, ?_, ?_⟩
        · have hsq := mapMatrix_square (rankedCols f)
            fun x y => corrCore (x.zip y)
          rw [rankedCols_length f] at hsq
          exact hsq
        · intro i j
          exact mapMatrix_symm (rankedCols f) _
            (fun x y => hsymmS x y) i j
        · intro i j x h
          exact mapMatrix_bound (rankedCols f) _
            (fun x y r hr => corrCore_bound hr) i j x h
        · intro hne
          exact absurd rfl hne
        · intro _ _ i x h
          exact mapMatrix_diag (rankedCols f) _
            (fun x => corrCore_self (zip_self_fsteq x)) i x h
        · intro _ hc2
          exact absurd hc2 hcols2
  · rw [calc_corr_pearson f method hm]
    have hsymmP : ∀ a b : String × List (Option ℚ),
        corrCore (colPairs a.2 b.2) = corrCore (colPairs b.2 a.2) := by
      intro a b
      rw [colPairs_swap a.2 b.2, corrCore_swap]
    refine ⟨mapMatrix_square f.cols _, ?_, ?_, ?_, ?_, ?_⟩
    · intro i j
      exact mapMatrix_symm f.cols _ (fun a b => hsymmP a b) i j
    · intro i j x h
      exact mapMatrix_bound f.cols _ (fun a b r hr => corrCore_bound hr)
        i j x h
    · intro _ i x h
      exact mapMatrix_diag f.cols _
        (fun a => corrCore_self (colPairs_self_fsteq a.2)) i x h
    · intro hsp
      exact absurd hsp hm
    · intro hsp
      exact absurd hsp hm

/-- A two-asset frame with one strictly increasing and one strictly
decreasing column and no missing values. -/
def exSpearTwo : Frame :=
  ⟨[0, 1, 2], [("A", [some 1, some 2, some 3]), ("B", [some 3, some 2, some 1])]⟩

lemma exSpearTwo_ranks : rankedCols exSpearTwo = [[1, 2, 3], [3, 2, 1]] := by
  have hA : List.filterMap (id : Option ℚ → Option ℚ) [some 1, some 2, some 3]
      = [1, 2, 3] := rfl
  have hB : List.filterMap (id : Option ℚ → Option ℚ) [some 3, some 2, some 1]
      = [3, 2, 1] := rfl
  norm_num [rankedCols, dropna, keepIdx, rowOk, exSpearTwo, rankdata,
    List.reduceOption, hA, hB, List.countP_cons, List.countP_nil,
    List.range_succ, decide_eq_true_eq]

lemma exSpearTwo_rho :
    corrCore (([1, 2, 3] : List ℚ).zip [3, 2, 1]) = some (-1) := by
  have hsxx : sxx (([1, 2, 3] : List ℚ).zip [3, 2, 1]) = 2 := by
    norm_num [sxx, centered, meanFst, meanSnd, sumPairs, List.zip_cons_cons]
  have hsyy : syy (([1, 2, 3] : List ℚ).zip [3, 2, 1]) = 2 := by
    norm_num [syy, centered, meanFst, meanSnd, sumPairs, List.zip_cons_cons]
  have hsxy : sxy (([1, 2, 3] : List ℚ).zip [3, 2, 1]) = -2 := by
    norm_num [sxy, centered, meanFst, meanSnd, sumPairs, List.zip_cons_cons]
  rw [corrCore, hsxx, hsyy, hsxy]
  rw [if_neg (by norm_num)]
  congr 1
  have h4 : ((2 : ℚ) : ℝ) * ((2 : ℚ) : ℝ) = 2 ^ 2 := by norm_num
  rw [h4, Real.sqrt_sq (by norm_num : (0 : ℝ) ≤ 2)]
  norm_num

/-- C2 counterexample: under Spearman with exactly two assets (one
increasing, one decreasing), the broadcast scalar makes the diagonal entry
`-1`, refuting "every diagonal entry is exactly 1.0". -/
theorem c2_correlation_counterexample :
    mEntry (calculate_correlation exSpearTwo "spearman") 0 0 = some (some (-1))
      ∧ mEntry (calculate_correlation exSpearTwo "spearman") 0 0
          ≠ some (some 1) := by
  have hne : ¬ (dropna exSpearTwo).index.isEmpty = true := by decide
  have hM : calculate_correlation exSpearTwo "spearman"
      = [[some (-1), some (-1)], [some (-1), some (-1)]] := by
    rw [calc_corr_spearman_data exSpearTwo hne,
      spearmanFrame_two exSpearTwo [1, 2, 3] [3, 2, 1] exSpearTwo_ranks,
      exSpearTwo_rho]
  rw [hM]
  refine ⟨rfl, ?_⟩
  intro h
  have h1 : ((-1 : ℝ)) = 1 := Option.some.inj (Option.some.inj h)
  norm_num at h1

/-- C2 witness: the amended theorem applied to the concrete two-column
frame under Pearson — symmetry of the (0,1) and (1,0) entries. -/
theorem c2_correlation_witness :
    mEntry (calculate_correlation exSpearTwo "pearson") 0 1
      = mEntry (calculate_correlation exSpearTwo "pearson") 1 0 :=
  (c2_correlation_matrix_amended exSpearTwo "pearson" (by decide)).2.1 0 1

/-! ### Alignment lemmas and example frames -/

lemma mem_keepIdx (f : Frame) (r : ℕ) :
    r ∈ keepIdx f ↔ (r < f.index.length ∧ rowOk f r = true) := by
  simp [keepIdx, List.mem_filter, List.mem_range]

lemma spearman_empty_allNone (f : Frame) (he : keepIdx f = []) :
    calculate_correlation f "spearman"
      = f.cols.map fun _ => f.cols.map fun _ => none := by
  apply calc_corr_spearman_empty
  simp [dropna, he]

/-- The observations actually used for one pairwise Pearson entry are
exactly the values at the pairwise-complete row positions. -/
lemma colPairs_eq_pairIdx_map : ∀ (xs ys : List (Option ℚ)),
    colPairs xs ys = (pairIdx xs ys).map fun r =>
      ((xs.getD r none).getD 0, (ys.getD r none).getD 0) := by
  intro xs
  induction xs with
  | nil => intro ys; rfl
  | cons x xs ih =>
    intro ys
    cases ys with
    | nil =>
      have h1 : colPairs (x :: xs) [] = [] := by
        rw [colPairs, List.zip_nil_right]
        rfl
      have h2 : pairIdx (x :: xs) [] = [] := by
        rw [pairIdx, List.filter_eq_nil_iff]
        intro r hr
        simp [List.getD]
      rw [h1, h2]
      rfl
    | cons y ys =>
      have hext := ih ys
      rw [colPairs] at hext
      rw [pairIdx] at hext
      rw [colPairs, List.zip_cons_cons, List.filterMap_cons]
      rw [pairIdx, List.length_cons, List.range_succ_eq_map, List.filter_cons,
        List.filter_map]
      rcases x with _ | u <;> rcases y with _ | w <;>
        simp [List.map_map, Function.comp_def] <;>
        rw [hext] <;>
        simp [Function.comp_def, List.getD]

/-- Asset A has data on days 1-5 and asset B on days 3-7 (the spec's
alignment scenario). -/
def exAlign : Frame :=
  ⟨[1, 2, 3, 4, 5, 6, 7],
   [("A", [some 10, some 11, some 12, some 13, some 14, none, none]),
    ("B", [none, none, some 20, some 21, some 22, some 23, some 24])]⟩

/-- Two assets with no common timestamp at all. -/
def exDisjoint : Frame :=
  ⟨[1, 2, 3, 4],
   [("A", [some 1, some 2, none, none]),
    ("B", [none, none, some 3, some 4])]⟩

/-- Three assets; only column C has a missing value, in the last row. -/
def exPairwise : Frame :=
  ⟨[0, 1, 2],
   [("A", [some 1, some 2, some 3]),
    ("B", [some 2, some 1, some 4]),
    ("C", [some 5, some 6, none])]⟩

/-- C5 (amended): Spearman correlation aligns by inner join — `dropna`
keeps exactly the rows in which every asset has a value, and the day
1-5 / day 3-7 example yields exactly days 3-5; but when no common rows
remain the code RETURNS an all-undefined assets × assets matrix instead of
failing (no `InsufficientDataError` exists), and the page's only guard
stops on an empty fetched frame or fewer than two columns — it never
checks the aligned row count. -/
theorem c5_alignment_amended :
    ((dropna exAlign).index = [3, 4, 5])
    ∧ (∀ (f : Frame) (r : ℕ),
        r ∈ keepIdx f ↔ (r < f.index.length ∧ rowOk f r = true))
    ∧ (∀ f : Frame, keepIdx f = [] →
        calculate_correlation f "spearman"
          = f.cols.map fun _ => f.cols.map fun _ => none)
    ∧ (∀ f : Frame, correlationPageStops f = false
        ↔ (pandasEmpty f = false ∧ 2 ≤ f.cols.length)) := by
  refine ⟨by decide, mem_keepIdx, spearman_empty_allNone, ?_⟩
  intro f
  rw [correlationPageStops]
  simp [Nat.not_lt]

/-- C5 counterexample: with zero common timestamps the page guard passes
(the fetched frame is nonempty with two columns) and the Spearman
computation still produces a matrix — the all-undefined 2 × 2 matrix —
rather than failing with an `InsufficientDataError`. -/
theorem c5_alignment_counterexample :
    correlationPageStops exDisjoint = false
      ∧ (dropna exDisjoint).index = []
      ∧ calculate_correlation exDisjoint "spearman"
          = [[none, none], [none, none]] := by
  refine ⟨by decide, by decide, ?_⟩
  rw [spearman_empty_allNone exDisjoint (by decide)]
  rfl

/-- C5 witness: the zero-common-rows branch applied to the disjoint
frame. -/
theorem c5_alignment_witness :
    calculate_correlation exDisjoint "spearman"
      = exDisjoint.cols.map fun _ => exDisjoint.cols.map fun _ => none :=
  c5_alignment_amended.2.2.1 exDisjoint (by decide)

/-- C7 (confirmed): for the Spearman method every row with any missing
value is dropped before ranking (`keepIdx` keeps exactly the complete
rows, and the ranks are computed from the dropped frame), and when zero
rows remain `calculate_correlation` returns the all-undefined
assets × assets matrix rather than raising an error. -/
theorem c7_spearman_complete_case :
    ∀ f : Frame,
      (∀ r : ℕ, r ∈ keepIdx f ↔ (r < f.index.length ∧ rowOk f r = true))
      ∧ (keepIdx f = [] →
          (calculate_correlation f "spearman"
              = f.cols.map fun _ => f.cols.map fun _ => none)
            ∧ (calculate_correlation f "spearman").length = f.cols.length
            ∧ ∀ row ∈ calculate_correlation f "spearman",
                row.length = f.cols.length) := by
  intro f
  refine ⟨mem_keepIdx f, ?_⟩
  intro he
  have hM := spearman_empty_allNone f he
  refine ⟨hM, ?_, ?_⟩
  · rw [hM]
    simp
  · rw [hM]
    intro row hrow
    rcases List.mem_map.1 hrow with ⟨a, -, rfl⟩
    simp

/-- C7 witness: the all-undefined 2 × 2 result on the frame with no
complete rows. -/
theorem c7_spearman_complete_case_witness :
    (calculate_correlation exDisjoint "spearman"
        = exDisjoint.cols.map fun _ => exDisjoint.cols.map fun _ => none)
      ∧ (calculate_correlation exDisjoint "spearman").length
          = exDisjoint.cols.length
      ∧ ∀ row ∈ calculate_correlation exDisjoint "spearman",
          row.length = exDisjoint.cols.length :=
  (c7_spearman_complete_case exDisjoint).2 (by decide)

/-- C10 (confirmed): the Pearson entry for a pair of columns is computed
from the rows where both columns of THAT PAIR are present (`pairIdx`),
while Spearman first drops every row with any missing value in any column
(`keepIdx`); the complete rows are always a subset of any pair's rows, and
on the concrete three-column frame (column C missing only in the last
row) the Pearson row set for the pair (A, B) is strictly larger than the
complete-case row set. -/
theorem c10_pearson_pairwise_spearman_complete :
    (∀ f : Frame, Frame.wf f → ∀ c1 ∈ f.cols, ∀ c2 ∈ f.cols,
        keepIdx f ⊆ pairIdx c1.2 c2.2)
    ∧ (∀ xs ys : List (Option ℚ),
        colPairs xs ys = (pairIdx xs ys).map fun r =>
          ((xs.getD r none).getD 0, (ys.getD r none).getD 0))
    ∧ keepIdx exPairwise = [0, 1]
    ∧ pairIdx [some 1, some 2, some 3] [some 2, some 1, some 4] = [0, 1, 2] := by
  refine ⟨?_, colPairs_eq_pairIdx_map, by decide, by decide⟩
  intro f hwf c1 hc1 c2 hc2 r hr
  rcases (mem_keepIdx f r).1 hr with ⟨hlt, hok⟩
  rw [rowOk] at hok
  have hall := List.all_eq_true.1 hok
  rw [pairIdx, List.mem_filter, List.mem_range]
  constructor
  · rw [hwf c1 hc1]
    exact hlt
  · have h1 := hall c1 hc1
    have h2 := hall c2 hc2
    simp only at h1 h2
    rw [h1, h2]
    rfl

/-- C10 witness: the subset relation instantiated on the concrete
three-column frame for the pair (A, B). -/
theorem c10_pearson_pairwise_witness :
    keepIdx exPairwise
      ⊆ pairIdx [some 1, some 2, some 3] [some 2, some 1, some 4] :=
  c10_pearson_pairwise_spearman_complete.1 exPairwise
    (show ∀ c ∈ exPairwise.cols, c.2.length = exPairwise.index.length by decide)
    ("A", [some 1, some 2, some 3]) (by decide)
    ("B", [some 2, some 1, some 4]) (by decide)

/-! ### C6: error handling of the results loop -/

lemma filterMap_if_length {α β : Type} (p : α → Bool) (g : α → β) :
    ∀ l : List α,
      (l.filterMap fun c => if p c then none else some (g c)).length
        = l.countP fun c => !p c := by
  intro l
  induction l with
  | nil => rfl
  | cons c cs ih =>
    rw [List.filterMap_cons, List.countP_cons]
    by_cases hc : p c = true
    · simp [hc, ih]
    · simp [hc, ih]

/-- C6 (amended): there is no `EmptySeriesError`: a column is skipped only
when NOTHING remains after dropping missing values; a single-point series
is not rejected — its Sharpe ratio and max drawdown are NaN (`none`) and
its row still enters the report, so undefined values do reach the report
silently. -/
theorem c6_error_handling_amended :
    (∀ (s : List ℚ) (r : ℚ), s.length ≤ 1 →
        calculate_sharpe_ratio s r = none ∧ calculate_max_drawdown s = none)
    ∧ (∀ (f : Frame) (d : ℕ) (r : ℚ),
        (pageRows f d r).length
          = f.cols.countP fun c => !c.2.reduceOption.isEmpty) := by
  constructor
  · intro s r hs
    rcases s with _ | ⟨a, _ | ⟨b, t⟩⟩
    · exact ⟨rfl, rfl⟩
    · exact ⟨rfl, rfl⟩
    · exfalso
      simp only [List.length_cons] at hs
      omega
  · intro f d r
    exact filterMap_if_length (fun c => c.2.reduceOption.isEmpty) _ f.cols

/-- A frame with one single-point column. -/
def exSingle : Frame := ⟨[0], [("A", [some 100])]⟩

/-- C6 counterexample: the single-point column is not skipped and not
rejected; its row enters the report with NaN Sharpe and NaN max drawdown. -/
theorem c6_error_handling_counterexample :
    (pageRows exSingle 365 (1/25)).map (fun r => (r.asset, r.sharpe, r.mdd))
      = [("A", (none : Option ℝ), (none : Option ℚ))] := rfl

/-- C6 witness: the amended theorem at a single-point series and at the
single-column frame. -/
theorem c6_error_handling_witness :
    (calculate_sharpe_ratio [100] (2/50) = none
        ∧ calculate_max_drawdown [100] = none)
      ∧ (pageRows exSingle 5 (1/20)).length
          = exSingle.cols.countP fun c => !c.2.reduceOption.isEmpty :=
  ⟨c6_error_handling_amended.1 [100] (2/50) (by decide),
   c6_error_handling_amended.2 exSingle 5 (1/20)⟩

/-! ### C9: the ranking sort -/

lemma insertByKey_perm (x : String × ℚ) : ∀ l : List (String × ℚ),
    List.Perm (insertByKey x l) (x :: l) := by
  intro l
  induction l with
  | nil => exact List.Perm.refl _
  | cons y ys ih =>
    rw [insertByKey]
    by_cases h : x.2 ≤ y.2
    · rw [if_pos h]
    · rw [if_neg h]
      exact (List.Perm.cons y ih).trans (List.Perm.swap x y ys)

lemma sortAscByKey_perm : ∀ l : List (String × ℚ),
    List.Perm (sortAscByKey l) l := by
  intro l
  induction l with
  | nil => exact List.Perm.refl _
  | cons x xs ih =>
    rw [sortAscByKey]
    exact (insertByKey_perm x (sortAscByKey xs)).trans (List.Perm.cons x ih)

lemma insertByKey_sorted (x : String × ℚ) : ∀ l : List (String × ℚ),
    List.Pairwise (fun a b : String × ℚ => a.2 ≤ b.2) l →
    List.Pairwise (fun a b : String × ℚ => a.2 ≤ b.2) (insertByKey x l) := by
  intro l
  induction l with
  | nil =>
    intro _
    simp [insertByKey]
  | cons y ys ih =>
    intro hl
    rcases List.pairwise_cons.1 hl with ⟨hy, hys⟩
    rw [insertByKey]
    by_cases h : x.2 ≤ y.2
    · rw [if_pos h]
      refine List.pairwise_cons.2 ⟨?_, hl⟩
      intro z hz
      rcases List.mem_cons.1 hz with rfl | hz
      · exact h
      · exact le_trans h (hy z hz)
    · rw [if_neg h]
      refine List.pairwise_cons.2 ⟨?_, ih hys⟩
      intro z hz
      have hz2 : z ∈ x :: ys := (insertByKey_perm x ys).mem_iff.1 hz
      rcases List.mem_cons.1 hz2 with rfl | hz2
      · exact le_of_not_le h
      · exact hy z hz2

lemma sortAscByKey_sorted : ∀ l : List (String × ℚ),
    List.Pairwise (fun a b : String × ℚ => a.2 ≤ b.2) (sortAscByKey l) := by
  intro l
  induction l with
  | nil => exact List.Pairwise.nil
  | cons x xs ih =>
    rw [sortAscByKey]
    exact insertByKey_sorted x (sortAscByKey xs) ih

/-- C9 (amended): the ranking table is a permutation of the input rows
sorted by the Sharpe key in non-increasing order — but NO tie-break on the
asset name exists: `sort_values` argsorts on the single `Sharpe_Sort`
column and reverses the permutation, so rows with equal Sharpe come out in
reverse input order rather than ascending by name. -/
theorem c9_ranking_sort_amended :
    ∀ rows : List (String × ℚ),
      List.Perm (results_df_sorted rows) rows
      ∧ List.Pairwise (fun a b : String × ℚ => b.2 ≤ a.2)
          (results_df_sorted rows) := by
  intro rows
  constructor
  · exact (List.reverse_perm (sortAscByKey rows)).trans (sortAscByKey_perm rows)
  · rw [results_df_sorted, List.pairwise_reverse]
    exact sortAscByKey_sorted rows

/-- C9 counterexample: two rows with equal Sharpe ratio come out with the
names in DESCENDING order ("Beta" before "Alpha"), refuting the claimed
deterministic ascending-name tie-break. -/
theorem c9_ranking_sort_counterexample :
    ¬ List.Pairwise (fun a b : String × ℚ =>
        a.2 > b.2 ∨ (a.2 = b.2 ∧ a.1 < b.1))
      (results_df_sorted [("Alpha", 1), ("Beta", 1)]) := by
  intro h
  have hres : results_df_sorted [("Alpha", 1), ("Beta", 1)]
      = [("Beta", 1), ("Alpha", 1)] := by
    norm_num [results_df_sorted, sortAscByKey, insertByKey]
  rw [hres] at h
  rcases List.pairwise_cons.1 h with ⟨hd, -⟩
  have hcmp := hd ("Alpha", 1) (List.mem_cons_self _ _)
  rcases hcmp with h1 | h2
  · norm_num at h1
  · refine absurd h2.2 ?_
    rw [String.lt_iff_toList_lt]
    decide

end FinanceAnalysis
